import Mathlib

/-!
Verification of the core transforms of the latex-flatten tool (src/main.rs):
the path-flattening map `flatten_path`, the per-line reference rewriter
`replace_imports` driven by the regex
`\\(input|include|includegraphics|bibliography\w*)(\[[^]]*\])?\{([^}]*)\}`,
and the per-file dispatch `process_content`.

Strings are modelled as `List Char`.  The brace characters are written with
their escapes `'\x7b'` (opening brace) and `'\x7d'` (closing brace)
throughout.  The regex is embedded as an explicit scanning function: the
pattern's alternation is leftmost-first and each sub-pattern
(`[^]]*`, `[^}]*`, `\w*`) is a deterministic scan, so the whole match at a
given start position is a deterministic function of the text, which the
definitions below compute.
-/

/-- Model of the regex word class `\w` as used by `bibliography\w*`,
restricted to its ASCII part (letters, digits and underscore); the
source's regex engine additionally accepts non-ASCII word characters,
which no recognized command in this development uses. -/
def isWordChar (c : Char) : Bool :=
  (c.isAlpha || c.isDigit) || c == '_'

/-- Model of `str::replace('/', "__")` on the captured path argument
(src/main.rs line 170). -/
def flattenFrag : List Char → List Char
  | [] => []
  | c :: t => if c = '/' then '_' :: '_' :: flattenFrag t else c :: flattenFrag t

/-- Scan for the first occurrence of `stop`; returns the chars before it and
the chars after it.  This computes the regex fragments `[^]]*\]` (for
`stop = ']'`) and `[^}]*\}` (for `stop = '}'`). -/
def scanUntil (stop : Char) : List Char → Option (List Char × List Char)
  | [] => none
  | c :: t =>
    if c = stop then some ([], t)
    else
      match scanUntil stop t with
      | some (a, r) => some (c :: a, r)
      | none => none

/-- Match a literal character sequence at the front of the input. -/
def matchLit : List Char → List Char → Option (List Char)
  | [], cs => some cs
  | _ :: _, [] => none
  | l :: ls, c :: cs => if c = l then matchLit ls cs else none

/-- Greedy scan of word characters: the regex fragment `\w*`. -/
def takeWord : List Char → List Char × List Char
  | [] => ([], [])
  | c :: t =>
    if isWordChar c then
      match takeWord t with
      | (w, r) => (c :: w, r)
    else ([], c :: t)

def inputLit : List Char := "input".toList

def includeLit : List Char := "include".toList

def includegraphicsLit : List Char := "includegraphics".toList

def bibliographyLit : List Char := "bibliography".toList

/-- The regex fragment `\{([^}]*)\}`: a brace-delimited path argument.
Returns the captured path and the rest of the input. -/
def matchBraceArg : List Char → Option (List Char × List Char)
  | [] => none
  | c :: t => if c = '\x7b' then scanUntil '\x7d' t else none

/-- The regex fragment `(\[[^]]*\])?\{([^}]*)\}`: an optional bracketed
options group followed by the brace-delimited path argument.  Returns the
options text (including its brackets; empty when absent), the captured
path, and the rest of the input. -/
def matchOptsPath : List Char → Option (List Char × List Char × List Char)
  | [] => none
  | c :: t =>
    if c = '[' then
      match scanUntil ']' t with
      | some (inner, rest) =>
        match matchBraceArg rest with
        | some (path, r) => some ('[' :: (inner ++ [']']), path, r)
        | none => none
      | none => none
    else
      match matchBraceArg (c :: t) with
      | some (path, r) => some ([], path, r)
      | none => none

/-- Try one fixed command-name alternative followed by the options/path tail. -/
def tryCmdLit (lit cs : List Char) : Option (List Char × List Char × List Char × List Char) :=
  match matchLit lit cs with
  | some rest =>
    match matchOptsPath rest with
    | some (opts, path, r) => some (lit, opts, path, r)
    | none => none
  | none => none

/-- Try the `bibliography\w*` alternative followed by the options/path tail. -/
def tryBib (cs : List Char) : Option (List Char × List Char × List Char × List Char) :=
  match matchLit bibliographyLit cs with
  | some rest =>
    match takeWord rest with
    | (tail, rest2) =>
      match matchOptsPath rest2 with
      | some (opts, path, r) => some (bibliographyLit ++ tail, opts, path, r)
      | none => none
  | none => none

/-- Attempt the whole regex (minus its leading `\\`) at the current
position: the alternation
`input|include|includegraphics|bibliography\w*` is tried leftmost-first,
as the source's regex engine does, each alternative together with the
mandatory `(\[[^]]*\])?\{([^}]*)\}` continuation.  Returns the matched
command name, options text, path argument and the remaining input. -/
def matchAfterSlash (cs : List Char) : Option (List Char × List Char × List Char × List Char) :=
  match tryCmdLit inputLit cs with
  | some res => some res
  | none =>
    match tryCmdLit includeLit cs with
    | some res => some res
    | none =>
      match tryCmdLit includegraphicsLit cs with
      | some res => some res
      | none => tryBib cs

/-- The `Regex::replace_all` driver of `replace_imports` (src/main.rs lines
162–172): scan left to right; at each backslash attempt a match; on success
emit `\<command><options>{<path with '/' replaced by "__">}` and continue
after the match, otherwise copy the character and continue.  The `fuel`
argument is a recursion bound; any fuel at least the input length gives the
same result (proved below), and the entry point passes the length. -/
def replaceImportsAux : Nat → List Char → List Char
  | 0, cs => cs
  | _ + 1, [] => []
  | fuel + 1, c :: cs =>
    if c = '\\' then
      match matchAfterSlash cs with
      | some (cmd, opts, path, rest) =>
        '\\' :: (cmd ++ (opts ++ '\x7b' :: (flattenFrag path ++ '\x7d' :: replaceImportsAux fuel rest)))
      | none => '\\' :: replaceImportsAux fuel cs
    else c :: replaceImportsAux fuel cs

/-- The line rewriter on character lists. -/
def replaceImportsL (cs : List Char) : List Char :=
  replaceImportsAux cs.length cs

/-- Model of `replace_imports` (src/main.rs lines 157–173) on one line. -/
def replace_imports (line : String) : String :=
  String.mk (replaceImportsL line.toList)

/-- Remove one trailing carriage return, as `str::lines` does from a line
terminated by `\r\n`. -/
def stripCR (l : List Char) : List Char :=
  match l.getLast? with
  | some c => if c = '\r' then l.dropLast else l
  | none => l

/-- Worker for `rustLines`: split at `'\n'`, stripping one `'\r'` before
each line feed; a final line feed terminates the last line rather than
starting an empty one; a final piece without a line feed keeps a bare
`'\r'`. -/
def rustLinesAux (acc : List Char) : List Char → List (List Char)
  | [] => [acc.reverse]
  | c :: t =>
    if c = '\n' then
      stripCR acc.reverse :: (if t = [] then [] else rustLinesAux [] t)
    else rustLinesAux (c :: acc) t

/-- Model of Rust `str::lines` (src/main.rs line 152): lines split at `\n`
or `\r\n`, with no trailing empty line for content ending in a line feed,
and no lines at all for empty content. -/
def rustLines (cs : List Char) : List (List Char) :=
  if cs = [] then [] else rustLinesAux [] cs

/-- Model of `Vec::join` on strings: concatenate the pieces with the
separator between consecutive pieces. -/
def joinSep (sep : List Char) : List (List Char) → List Char
  | [] => []
  | [s] => s
  | s :: t :: rest => s ++ sep ++ joinSep sep (t :: rest)

/-- The document-level rewriting transform applied to the text of a `.tex`
file (src/main.rs lines 149–154): rewrite each line and join with `"\n"`. -/
def processTexContent (content : List Char) : List Char :=
  joinSep ['\n'] ((rustLines content).map replaceImportsL)

/-- The portion of a file name after its last dot, when the name contains a
dot at all. -/
def afterLastDot : List Char → Option (List Char)
  | [] => none
  | c :: t =>
    match afterLastDot t with
    | some e => some e
    | none => if c = '.' then some t else none

/-- Model of Rust `Path::extension` on the file name: the portion after the
last dot, except that a name with no dot, or a leading dot and no other
dot, has no extension. -/
def fileExtension : List Char → Option (List Char)
  | [] => none
  | c :: t => if c = '.' then afterLastDot t else afterLastDot (c :: t)

/-- The `.tex` dispatch test of `process_content` (src/main.rs line 141):
`path.extension().map_or(false, |ext| ext == "tex")`, applied to the
file name (the extension of a path is that of its final component). -/
def pathIsTex (name : List Char) : Bool :=
  match fileExtension name with
  | some e => e == "tex".toList
  | none => false

/-- Model of `process_content` (src/main.rs lines 138–155) as a pure
transform of the file's content: a `.tex` file's text is rewritten
line-by-line; any other file's content is returned unchanged (the source
returns the raw bytes without decoding them; returning the content
untouched models that). -/
def process_content (name content : List Char) : List Char :=
  if pathIsTex name then processTexContent content else content

/-- A path component as handed over by the operating system: either valid
text or a non-text byte sequence (on which `OsStr::to_str` fails). -/
inductive OsStr where
  | text : List Char → OsStr
  | nonText : List Nat → OsStr
deriving DecidableEq

/-- Model of `OsStr::to_str`: succeeds exactly on text components. -/
def osToStr : OsStr → Option (List Char)
  | OsStr.text s => some s
  | OsStr.nonText _ => none

/-- Convert every component to text, failing on the first non-text one, as
the `map(to_str().unwrap())`/`collect` of `flatten_path` does (the panic of
`unwrap` is the specification's EncodingError, modelled as `none`). -/
def mapOsToStr : List OsStr → Option (List (List Char))
  | [] => some []
  | c :: t =>
    match osToStr c, mapOsToStr t with
    | some s, some rest => some (s :: rest)
    | _, _ => none

/-- Model of `flatten_path` (src/main.rs lines 128–136): skip as many
leading components as the root has, render the remaining components as
text, and join them with `"__"`. -/
def flatten_path (root path : List OsStr) : Option (List Char) :=
  (mapOsToStr (path.drop root.length)).map (fun segs => joinSep "__".toList segs)

/-- The command names generated by the regex alternation
`input|include|includegraphics|bibliography\w*`. -/
def RecognizedCmd (cmd : List Char) : Prop :=
  cmd = inputLit ∨ cmd = includeLit ∨ cmd = includegraphicsLit ∨
    ∃ t, cmd = bibliographyLit ++ t ∧ ∀ c ∈ t, isWordChar c = true

/-- Well-formed options text: absent, or bracket-delimited with no closing
bracket inside, as generated by `(\[[^]]*\])?`. -/
def WfOpts (opts : List Char) : Prop :=
  opts = [] ∨ ∃ inner, opts = '[' :: (inner ++ [']']) ∧ ']' ∉ inner

/-- A line contains a recognized command when the regex matches at some
position, i.e. some suffix starts with a backslash followed by a full
command/options/path occurrence. -/
def lineHasCommand (cs : List Char) : Bool :=
  cs.tails.any fun t =>
    match t with
    | c :: u => c == '\\' && (matchAfterSlash u).isSome
    | [] => false

/-- Count the non-overlapping occurrences of `"__"`, scanning left to
right. -/
def countUU : List Char → Nat
  | [] => 0
  | [_] => 0
  | c :: d :: t =>
    if c = '_' ∧ d = '_' then countUU t + 1 else countUU (d :: t)

/-- The correspondence between a line and its rewritten form: equal
character by character, except that each matched occurrence keeps its
command and options and has its path argument flattened. -/
inductive Corr : List Char → List Char → Prop where
  | nil : Corr [] []
  | cons (c : Char) {xs ys : List Char} : Corr xs ys → Corr (c :: xs) (c :: ys)
  | occ {cmd opts p r r' : List Char} :
      (∀ c ∈ cmd, isWordChar c = true) → WfOpts opts → '\x7d' ∉ p → Corr r r' →
      Corr ('\\' :: (cmd ++ (opts ++ '\x7b' :: (p ++ '\x7d' :: r))))
           ('\\' :: (cmd ++ (opts ++ '\x7b' :: (flattenFrag p ++ '\x7d' :: r'))))

/-- A pair of suffixes that are mid-way inside a matched path argument:
the rest of the path (no closing brace), its closing brace, and
corresponding tails. -/
def PathRem (xs ys : List Char) : Prop :=
  ∃ p r r', '\x7d' ∉ p ∧ Corr r r' ∧ xs = p ++ '\x7d' :: r ∧ ys = flattenFrag p ++ '\x7d' :: r'

/-- Specification-side frame relation, following the specification's words:
the two texts are byte-for-byte identical except possibly inside the
brace-delimited path arguments of recognized commands. -/
inductive AgreeOutsidePaths : List Char → List Char → Prop where
  | nil : AgreeOutsidePaths [] []
  | cons (c : Char) {xs ys : List Char} :
      AgreeOutsidePaths xs ys → AgreeOutsidePaths (c :: xs) (c :: ys)
  | occ {cmd opts p q r r' : List Char} :
      RecognizedCmd cmd → WfOpts opts → '\x7d' ∉ p → '\x7d' ∉ q →
      AgreeOutsidePaths r r' →
      AgreeOutsidePaths ('\\' :: (cmd ++ (opts ++ '\x7b' :: (p ++ '\x7d' :: r))))
                        ('\\' :: (cmd ++ (opts ++ '\x7b' :: (q ++ '\x7d' :: r'))))


theorem wordChar_ne {c : Char} (h : isWordChar c = true) :
    c ≠ '\\' ∧ c ≠ '[' ∧ c ≠ ']' ∧ c ≠ '\x7b' ∧ c ≠ '\x7d' ∧ c ≠ '/' := by
  refine ⟨?_, ?_, ?_, ?_, ?_, ?_⟩ <;> (rintro rfl; revert h; decide)

theorem flattenFrag_cons_slash (t : List Char) :
    flattenFrag ('/' :: t) = '_' :: '_' :: flattenFrag t := by
  simp [flattenFrag]

theorem flattenFrag_cons_ne {c : Char} (h : c ≠ '/') (t : List Char) :
    flattenFrag (c :: t) = c :: flattenFrag t := by
  simp [flattenFrag, h]

theorem flattenFrag_append (a b : List Char) :
    flattenFrag (a ++ b) = flattenFrag a ++ flattenFrag b := by
  induction a with
  | nil => simp [flattenFrag]
  | cons c t ih =>
    by_cases hc : c = '/'
    · subst hc
      simp [flattenFrag_cons_slash, ih]
    · simp [flattenFrag_cons_ne hc, ih]

theorem slash_not_mem_flattenFrag (p : List Char) : '/' ∉ flattenFrag p := by
  induction p with
  | nil => simp [flattenFrag]
  | cons c t ih =>
    by_cases hc : c = '/'
    · subst hc
      rw [flattenFrag_cons_slash]
      simp only [List.mem_cons]
      rintro (h | h | h)
      · exact absurd h (by decide)
      · exact absurd h (by decide)
      · exact ih h
    · rw [flattenFrag_cons_ne hc]
      simp only [List.mem_cons]
      rintro (h | h)
      · exact hc h.symm
      · exact ih h

theorem mem_flattenFrag_iff {c : Char} (h1 : c ≠ '_') (h2 : c ≠ '/') (p : List Char) :
    c ∈ flattenFrag p ↔ c ∈ p := by
  induction p with
  | nil => simp [flattenFrag]
  | cons d t ih =>
    by_cases hd : d = '/'
    · subst hd
      rw [flattenFrag_cons_slash]
      simp only [List.mem_cons, ih]
      constructor
      · rintro (h | h | h)
        · exact absurd h h1
        · exact absurd h h1
        · exact Or.inr h
      · rintro (h | h)
        · exact absurd h h2
        · exact Or.inr (Or.inr h)
    · rw [flattenFrag_cons_ne hd]
      simp [List.mem_cons, ih]

theorem flattenFrag_eq_self {p : List Char} (h : '/' ∉ p) : flattenFrag p = p := by
  induction p with
  | nil => rfl
  | cons c t ih =>
    simp only [List.mem_cons] at h
    push_neg at h
    rw [flattenFrag_cons_ne (Ne.symm h.1), ih h.2]

theorem flattenFrag_idem (p : List Char) :
    flattenFrag (flattenFrag p) = flattenFrag p :=
  flattenFrag_eq_self (slash_not_mem_flattenFrag p)

theorem scanUntil_none_of {s : Char} {cs : List Char} (h : s ∉ cs) :
    scanUntil s cs = none := by
  induction cs with
  | nil => rfl
  | cons c t ih =>
    simp only [List.mem_cons] at h
    push_neg at h
    simp only [scanUntil, if_neg (Ne.symm h.1), ih h.2]

theorem scanUntil_none_inv {s : Char} {cs : List Char} (h : scanUntil s cs = none) :
    s ∉ cs := by
  induction cs with
  | nil => simp
  | cons c t ih =>
    simp only [scanUntil] at h
    by_cases hc : c = s
    · rw [if_pos hc] at h
      exact absurd h (by simp)
    · rw [if_neg hc] at h
      cases ht : scanUntil s t with
      | none =>
        simp only [List.mem_cons]
        push_neg
        exact ⟨fun hs => hc hs.symm, ih ht⟩
      | some pr =>
        obtain ⟨a, r⟩ := pr
        rw [ht] at h
        exact absurd h (by simp)

theorem scanUntil_some_of {s : Char} {a : List Char} (h : s ∉ a) (r : List Char) :
    scanUntil s (a ++ s :: r) = some (a, r) := by
  induction a with
  | nil => simp [scanUntil]
  | cons c t ih =>
    simp only [List.mem_cons] at h
    push_neg at h
    simp only [List.cons_append, scanUntil, if_neg (Ne.symm h.1), List.append_eq]
    rw [ih h.2]

theorem scanUntil_some_inv {s : Char} {cs a r : List Char}
    (h : scanUntil s cs = some (a, r)) : cs = a ++ s :: r ∧ s ∉ a := by
  induction cs generalizing a r with
  | nil => exact absurd h (by simp [scanUntil])
  | cons c t ih =>
    simp only [scanUntil] at h
    by_cases hc : c = s
    · rw [if_pos hc] at h
      simp only [Option.some.injEq, Prod.mk.injEq] at h
      obtain ⟨h1, h2⟩ := h
      subst h1 h2 hc
      simp
    · rw [if_neg hc] at h
      cases ht : scanUntil s t with
      | none =>
        rw [ht] at h
        exact absurd h (by simp)
      | some pr =>
        obtain ⟨a', r'⟩ := pr
        rw [ht] at h
        simp only [Option.some.injEq, Prod.mk.injEq] at h
        obtain ⟨h1, h2⟩ := h
        subst h1 h2
        obtain ⟨h3, h4⟩ := ih ht
        subst h3
        refine ⟨rfl, ?_⟩
        simp only [List.mem_cons]
        push_neg
        exact ⟨fun hs => hc hs.symm, h4⟩

theorem scanUntil_append {s : Char} {a : List Char} (h : s ∉ a) (t : List Char) :
    scanUntil s (a ++ t) =
      match scanUntil s t with
      | some (x, y) => some (a ++ x, y)
      | none => none := by
  induction a with
  | nil =>
    cases ht : scanUntil s t with
    | none => simp [ht]
    | some pr =>
      obtain ⟨x, y⟩ := pr
      simp [ht]
  | cons c t' ih =>
    simp only [List.mem_cons] at h
    push_neg at h
    simp only [List.cons_append, scanUntil, if_neg (Ne.symm h.1), List.append_eq]
    rw [ih h.2]
    cases ht : scanUntil s t with
    | none => simp [ht]
    | some pr =>
      obtain ⟨x, y⟩ := pr
      simp [ht]

theorem matchLit_self (l rest : List Char) : matchLit l (l ++ rest) = some rest := by
  induction l with
  | nil => rfl
  | cons c t ih => simp [matchLit, ih]

theorem matchLit_some_inv {l cs r : List Char} (h : matchLit l cs = some r) :
    cs = l ++ r := by
  induction l generalizing cs with
  | nil =>
    simp only [matchLit, Option.some.injEq] at h
    simp [h]
  | cons c t ih =>
    cases cs with
    | nil => exact absurd h (by simp [matchLit])
    | cons d ds =>
      simp only [matchLit] at h
      by_cases hd : d = c
      · rw [if_pos hd] at h
        subst hd
        rw [ih h]
        rfl
      · rw [if_neg hd] at h
        exact absurd h (by simp)

theorem takeWord_append {w rest : List Char} (hw : ∀ c ∈ w, isWordChar c = true)
    (hr : ∀ c t, rest = c :: t → isWordChar c = false) :
    takeWord (w ++ rest) = (w, rest) := by
  induction w with
  | nil =>
    cases hrest : rest with
    | nil => rfl
    | cons c t => simp [takeWord, hr c t hrest]
  | cons c w' ih =>
    have hc : isWordChar c = true := hw c (by simp)
    simp only [List.cons_append, takeWord, hc, if_pos, List.append_eq]
    rw [ih (fun d hd => hw d (by simp [hd]))]

theorem takeWord_inv {cs w r : List Char} (h : takeWord cs = (w, r)) :
    cs = w ++ r ∧ ∀ c ∈ w, isWordChar c = true := by
  induction cs generalizing w with
  | nil =>
    simp only [takeWord, Prod.mk.injEq] at h
    obtain ⟨h1, h2⟩ := h
    subst h1 h2
    simp
  | cons c t ih =>
    simp only [takeWord] at h
    by_cases hc : isWordChar c
    · rw [if_pos hc] at h
      cases ht : takeWord t with
      | mk w' r' =>
        rw [ht] at h
        simp only [Prod.mk.injEq] at h
        obtain ⟨h1, h2⟩ := h
        subst h1 h2
        obtain ⟨h3, h4⟩ := ih ht
        subst h3
        refine ⟨rfl, ?_⟩
        intro d hd
        rcases List.mem_cons.mp hd with rfl | hd
        · exact hc
        · exact h4 d hd
    · rw [if_neg hc] at h
      simp only [Prod.mk.injEq] at h
      obtain ⟨h1, h2⟩ := h
      subst h1 h2
      simp

theorem matchBraceArg_at {p : List Char} (hp : '\x7d' ∉ p) (r : List Char) :
    matchBraceArg ('\x7b' :: (p ++ '\x7d' :: r)) = some (p, r) := by
  simp only [matchBraceArg, if_pos]
  exact scanUntil_some_of hp r

theorem matchBraceArg_none_head {c : Char} (hc : c ≠ '\x7b') (t : List Char) :
    matchBraceArg (c :: t) = none := by
  simp [matchBraceArg, hc]

theorem matchBraceArg_sound {cs p r : List Char} (h : matchBraceArg cs = some (p, r)) :
    cs = '\x7b' :: (p ++ '\x7d' :: r) ∧ '\x7d' ∉ p := by
  cases cs with
  | nil => exact absurd h (by simp [matchBraceArg])
  | cons c t =>
    simp only [matchBraceArg] at h
    by_cases hc : c = '\x7b'
    · rw [if_pos hc] at h
      subst hc
      obtain ⟨h1, h2⟩ := scanUntil_some_inv h
      exact ⟨by rw [h1], h2⟩
    · rw [if_neg hc] at h
      exact absurd h (by simp)

theorem matchOptsPath_at {opts p : List Char} (ho : WfOpts opts) (hp : '\x7d' ∉ p)
    (r : List Char) :
    matchOptsPath (opts ++ '\x7b' :: (p ++ '\x7d' :: r)) = some (opts, p, r) := by
  rcases ho with rfl | ⟨inner, rfl, hi⟩
  · simp only [List.nil_append, matchOptsPath]
    rw [if_neg (by decide), matchBraceArg_at hp r]
  · have harr : (('[' :: (inner ++ [']'])) ++ '\x7b' :: (p ++ '\x7d' :: r))
        = '[' :: (inner ++ ']' :: ('\x7b' :: (p ++ '\x7d' :: r))) := by simp
    rw [harr]
    simp only [matchOptsPath, if_pos]
    rw [scanUntil_some_of hi _]
    dsimp only
    rw [matchBraceArg_at hp r]

theorem matchOptsPath_sound {cs o p r : List Char}
    (h : matchOptsPath cs = some (o, p, r)) :
    cs = o ++ '\x7b' :: (p ++ '\x7d' :: r) ∧ WfOpts o ∧ '\x7d' ∉ p := by
  cases cs with
  | nil => exact absurd h (by simp [matchOptsPath])
  | cons c t =>
    simp only [matchOptsPath] at h
    by_cases hc : c = '['
    · rw [if_pos hc] at h
      subst hc
      cases hscan : scanUntil ']' t with
      | none =>
        rw [hscan] at h
        exact absurd h (by simp)
      | some pr =>
        obtain ⟨inner, rest⟩ := pr
        rw [hscan] at h
        dsimp only at h
        cases hb : matchBraceArg rest with
        | none =>
          rw [hb] at h
          exact absurd h (by simp)
        | some pr2 =>
          obtain ⟨path, r2⟩ := pr2
          rw [hb] at h
          dsimp only at h
          simp only [Option.some.injEq, Prod.mk.injEq] at h
          obtain ⟨h1, h2, h3⟩ := h
          subst h1 h2 h3
          obtain ⟨hrest, hpnot⟩ := matchBraceArg_sound hb
          obtain ⟨ht, hinot⟩ := scanUntil_some_inv hscan
          subst hrest ht
          refine ⟨by simp, Or.inr ⟨inner, rfl, hinot⟩, hpnot⟩
    · rw [if_neg hc] at h
      cases hb : matchBraceArg (c :: t) with
      | none =>
        rw [hb] at h
        exact absurd h (by simp)
      | some pr2 =>
        obtain ⟨path, r2⟩ := pr2
        rw [hb] at h
        dsimp only at h
        simp only [Option.some.injEq, Prod.mk.injEq] at h
        obtain ⟨h1, h2, h3⟩ := h
        subst h1 h2 h3
        obtain ⟨hrest, hpnot⟩ := matchBraceArg_sound hb
        exact ⟨by rw [hrest]; rfl, Or.inl rfl, hpnot⟩

theorem tryCmdLit_at {lit opts p : List Char} (ho : WfOpts opts) (hp : '\x7d' ∉ p)
    (r : List Char) :
    tryCmdLit lit (lit ++ (opts ++ '\x7b' :: (p ++ '\x7d' :: r))) = some (lit, opts, p, r) := by
  unfold tryCmdLit
  rw [matchLit_self]
  dsimp only
  rw [matchOptsPath_at ho hp r]

theorem tryCmdLit_sound {lit cs cmd o p r : List Char}
    (h : tryCmdLit lit cs = some (cmd, o, p, r)) :
    cmd = lit ∧ cs = lit ++ (o ++ '\x7b' :: (p ++ '\x7d' :: r)) ∧ WfOpts o ∧ '\x7d' ∉ p := by
  unfold tryCmdLit at h
  cases hm : matchLit lit cs with
  | none =>
    rw [hm] at h
    exact absurd h (by simp)
  | some rest =>
    rw [hm] at h
    dsimp only at h
    cases hmop : matchOptsPath rest with
    | none =>
      rw [hmop] at h
      exact absurd h (by simp)
    | some pr =>
      obtain ⟨o', p', r'⟩ := pr
      rw [hmop] at h
      dsimp only at h
      simp only [Option.some.injEq, Prod.mk.injEq] at h
      obtain ⟨h1, h2, h3, h4⟩ := h
      subst h1 h2 h3 h4
      obtain ⟨hrest, hwf, hpnot⟩ := matchOptsPath_sound hmop
      subst hrest
      exact ⟨rfl, matchLit_some_inv hm, hwf, hpnot⟩

theorem tryBib_at {tail opts p : List Char} (htail : ∀ c ∈ tail, isWordChar c = true)
    (ho : WfOpts opts) (hp : '\x7d' ∉ p) (r : List Char) :
    tryBib ((bibliographyLit ++ tail) ++ (opts ++ '\x7b' :: (p ++ '\x7d' :: r)))
      = some (bibliographyLit ++ tail, opts, p, r) := by
  unfold tryBib
  rw [List.append_assoc, matchLit_self]
  dsimp only
  have hw : takeWord (tail ++ (opts ++ '\x7b' :: (p ++ '\x7d' :: r)))
      = (tail, opts ++ '\x7b' :: (p ++ '\x7d' :: r)) := by
    apply takeWord_append htail
    intro c t hct
    rcases ho with rfl | ⟨inner, rfl, _⟩
    · rw [List.nil_append] at hct
      obtain ⟨h1, _⟩ := List.cons.injEq .. ▸ hct
      exact h1 ▸ (by decide)
    · rw [List.cons_append] at hct
      obtain ⟨h1, _⟩ := List.cons.injEq .. ▸ hct
      exact h1 ▸ (by decide)
  rw [hw]
  dsimp only
  rw [matchOptsPath_at ho hp r]

theorem tryBib_sound {cs cmd o p r : List Char} (h : tryBib cs = some (cmd, o, p, r)) :
    (∃ tail, cmd = bibliographyLit ++ tail ∧ ∀ c ∈ tail, isWordChar c = true) ∧
    cs = cmd ++ (o ++ '\x7b' :: (p ++ '\x7d' :: r)) ∧ WfOpts o ∧ '\x7d' ∉ p := by
  unfold tryBib at h
  cases hm : matchLit bibliographyLit cs with
  | none =>
    rw [hm] at h
    exact absurd h (by simp)
  | some rest =>
    rw [hm] at h
    dsimp only at h
    cases hw : takeWord rest with
    | mk tail rest2 =>
      rw [hw] at h
      dsimp only at h
      cases hmop : matchOptsPath rest2 with
      | none =>
        rw [hmop] at h
        exact absurd h (by simp)
      | some pr =>
        obtain ⟨o', p', r'⟩ := pr
        rw [hmop] at h
        dsimp only at h
        simp only [Option.some.injEq, Prod.mk.injEq] at h
        obtain ⟨h1, h2, h3, h4⟩ := h
        subst h1 h2 h3 h4
        obtain ⟨hrest2, hwf, hpnot⟩ := matchOptsPath_sound hmop
        obtain ⟨hrest, htail⟩ := takeWord_inv hw
        subst hrest2 hrest
        refine ⟨⟨tail, rfl, htail⟩, ?_, hwf, hpnot⟩
        rw [matchLit_some_inv hm]
        simp

theorem matchAfterSlash_sound {cs cmd o p r : List Char}
    (h : matchAfterSlash cs = some (cmd, o, p, r)) :
    cs = cmd ++ (o ++ '\x7b' :: (p ++ '\x7d' :: r)) ∧ RecognizedCmd cmd ∧
      WfOpts o ∧ '\x7d' ∉ p := by
  unfold matchAfterSlash at h
  cases h1 : tryCmdLit inputLit cs with
  | some res =>
    rw [h1] at h
    dsimp only at h
    simp only [Option.some.injEq] at h
    subst h
    obtain ⟨hc, hcs, hwf, hp⟩ := tryCmdLit_sound h1
    subst hc
    exact ⟨hcs, Or.inl rfl, hwf, hp⟩
  | none =>
    rw [h1] at h
    dsimp only at h
    cases h2 : tryCmdLit includeLit cs with
    | some res =>
      rw [h2] at h
      dsimp only at h
      simp only [Option.some.injEq] at h
      subst h
      obtain ⟨hc, hcs, hwf, hp⟩ := tryCmdLit_sound h2
      subst hc
      exact ⟨hcs, Or.inr (Or.inl rfl), hwf, hp⟩
    | none =>
      rw [h2] at h
      dsimp only at h
      cases h3 : tryCmdLit includegraphicsLit cs with
      | some res =>
        rw [h3] at h
        dsimp only at h
        simp only [Option.some.injEq] at h
        subst h
        obtain ⟨hc, hcs, hwf, hp⟩ := tryCmdLit_sound h3
        subst hc
        exact ⟨hcs, Or.inr (Or.inr (Or.inl rfl)), hwf, hp⟩
      | none =>
        rw [h3] at h
        dsimp only at h
        obtain ⟨hex, hcs, hwf, hp⟩ := tryBib_sound h
        obtain ⟨tail, hc, htail⟩ := hex
        exact ⟨hcs, Or.inr (Or.inr (Or.inr ⟨tail, hc, htail⟩)), hwf, hp⟩

theorem matchAfterSlash_at {cmd opts p : List Char} (hc : RecognizedCmd cmd)
    (ho : WfOpts opts) (hp : '\x7d' ∉ p) (r : List Char) :
    matchAfterSlash (cmd ++ (opts ++ '\x7b' :: (p ++ '\x7d' :: r))) = some (cmd, opts, p, r) := by
  rcases hc with rfl | rfl | rfl | ⟨tail, rfl, htail⟩
  · unfold matchAfterSlash
    rw [tryCmdLit_at ho hp r]
  · unfold matchAfterSlash
    have h1 : tryCmdLit inputLit (includeLit ++ (opts ++ '\x7b' :: (p ++ '\x7d' :: r)))
        = none := by
      unfold tryCmdLit
      rw [show matchLit inputLit (includeLit ++ (opts ++ '\x7b' :: (p ++ '\x7d' :: r)))
        = none from rfl]
    rw [h1]
    dsimp only
    rw [tryCmdLit_at ho hp r]
  · unfold matchAfterSlash
    have h1 : tryCmdLit inputLit
        (includegraphicsLit ++ (opts ++ '\x7b' :: (p ++ '\x7d' :: r))) = none := by
      unfold tryCmdLit
      rw [show matchLit inputLit
        (includegraphicsLit ++ (opts ++ '\x7b' :: (p ++ '\x7d' :: r))) = none from rfl]
    have h2 : tryCmdLit includeLit
        (includegraphicsLit ++ (opts ++ '\x7b' :: (p ++ '\x7d' :: r))) = none := by
      unfold tryCmdLit
      rw [show includegraphicsLit ++ (opts ++ '\x7b' :: (p ++ '\x7d' :: r))
        = includeLit ++ ("graphics".toList ++ (opts ++ '\x7b' :: (p ++ '\x7d' :: r)))
        from rfl]
      rw [matchLit_self]
      dsimp only
      rw [show matchOptsPath
        ("graphics".toList ++ (opts ++ '\x7b' :: (p ++ '\x7d' :: r))) = none from rfl]
    rw [h1]
    dsimp only
    rw [h2]
    dsimp only
    rw [tryCmdLit_at ho hp r]
  · unfold matchAfterSlash
    have h1 : tryCmdLit inputLit
        ((bibliographyLit ++ tail) ++ (opts ++ '\x7b' :: (p ++ '\x7d' :: r))) = none := by
      unfold tryCmdLit
      rw [show matchLit inputLit
        ((bibliographyLit ++ tail) ++ (opts ++ '\x7b' :: (p ++ '\x7d' :: r)))
        = none from rfl]
    have h2 : tryCmdLit includeLit
        ((bibliographyLit ++ tail) ++ (opts ++ '\x7b' :: (p ++ '\x7d' :: r))) = none := by
      unfold tryCmdLit
      rw [show matchLit includeLit
        ((bibliographyLit ++ tail) ++ (opts ++ '\x7b' :: (p ++ '\x7d' :: r)))
        = none from rfl]
    have h3 : tryCmdLit includegraphicsLit
        ((bibliographyLit ++ tail) ++ (opts ++ '\x7b' :: (p ++ '\x7d' :: r))) = none := by
      unfold tryCmdLit
      rw [show matchLit includegraphicsLit
        ((bibliographyLit ++ tail) ++ (opts ++ '\x7b' :: (p ++ '\x7d' :: r)))
        = none from rfl]
    rw [List.append_assoc] at h1 h2 h3 ⊢
    rw [h1]
    dsimp only
    rw [h2]
    dsimp only
    rw [h3]
    dsimp only
    rw [← List.append_assoc]
    exact tryBib_at htail ho hp r

theorem matchAfterSlash_rest_length {cs cmd o p r : List Char}
    (h : matchAfterSlash cs = some (cmd, o, p, r)) : r.length < cs.length := by
  obtain ⟨h1, _, _, _⟩ := matchAfterSlash_sound h
  subst h1
  simp only [List.length_append, List.length_cons]
  omega

theorem replaceImportsAux_nil (m : Nat) : replaceImportsAux m [] = [] := by
  cases m <;> rfl

theorem replaceImportsAux_irrel :
    ∀ n cs m1 m2, cs.length ≤ m1 → cs.length ≤ m2 → cs.length ≤ n →
      replaceImportsAux m1 cs = replaceImportsAux m2 cs := by
  intro n
  induction n with
  | zero =>
    intro cs m1 m2 _ _ hn
    have : cs = [] := List.length_eq_zero.mp (Nat.le_zero.mp hn)
    subst this
    rw [replaceImportsAux_nil, replaceImportsAux_nil]
  | succ n ih =>
    intro cs m1 m2 h1 h2 hn
    cases cs with
    | nil => rw [replaceImportsAux_nil, replaceImportsAux_nil]
    | cons c t =>
      simp only [List.length_cons] at h1 h2 hn
      cases m1 with
      | zero => omega
      | succ m1' =>
        cases m2 with
        | zero => omega
        | succ m2' =>
          simp only [replaceImportsAux]
          by_cases hc : c = '\\'
          · rw [if_pos hc, if_pos hc]
            cases hm : matchAfterSlash t with
            | none =>
              dsimp only
              rw [ih t m1' m2' (by omega) (by omega) (by omega)]
            | some res =>
              obtain ⟨cmd, o, p, r⟩ := res
              have hr := matchAfterSlash_rest_length hm
              dsimp only
              rw [ih r m1' m2' (by omega) (by omega) (by omega)]
          · rw [if_neg hc, if_neg hc, ih t m1' m2' (by omega) (by omega) (by omega)]

theorem replaceImportsL_nil : replaceImportsL [] = [] := rfl

theorem replaceImportsL_cons {c : Char} (hc : c ≠ '\\') (t : List Char) :
    replaceImportsL (c :: t) = c :: replaceImportsL t := by
  unfold replaceImportsL
  simp only [List.length_cons, replaceImportsAux, if_neg hc]

theorem replaceImportsL_slash_none {t : List Char} (h : matchAfterSlash t = none) :
    replaceImportsL ('\\' :: t) = '\\' :: replaceImportsL t := by
  unfold replaceImportsL
  simp only [List.length_cons, replaceImportsAux, if_pos, h]

theorem replaceImportsL_slash_some {t cmd o p r : List Char}
    (h : matchAfterSlash t = some (cmd, o, p, r)) :
    replaceImportsL ('\\' :: t) =
      '\\' :: (cmd ++ (o ++ '\x7b' :: (flattenFrag p ++ '\x7d' :: replaceImportsL r))) := by
  unfold replaceImportsL
  simp only [List.length_cons, replaceImportsAux, if_pos, h]
  have hr := matchAfterSlash_rest_length h
  rw [replaceImportsAux_irrel t.length r t.length r.length (by omega) (by omega) (by omega)]

theorem replaceImportsL_occ {cmd o p : List Char} (hc : RecognizedCmd cmd) (ho : WfOpts o)
    (hp : '\x7d' ∉ p) (rest : List Char) :
    replaceImportsL ('\\' :: (cmd ++ (o ++ '\x7b' :: (p ++ '\x7d' :: rest)))) =
      '\\' :: (cmd ++ (o ++ '\x7b' :: (flattenFrag p ++ '\x7d' :: replaceImportsL rest))) :=
  replaceImportsL_slash_some (matchAfterSlash_at hc ho hp rest)

theorem scanUntil_none_iff {s : Char} {cs : List Char} :
    scanUntil s cs = none ↔ s ∉ cs :=
  ⟨scanUntil_none_inv, scanUntil_none_of⟩

theorem corr_mem_iff {xs ys : List Char} (h : Corr xs ys) {c : Char}
    (h1 : c ≠ '_') (h2 : c ≠ '/') : c ∈ xs ↔ c ∈ ys := by
  induction h with
  | nil => simp
  | cons d h ih => simp [List.mem_cons, ih]
  | occ hw ho hp hcorr ih =>
    simp only [List.mem_cons, List.mem_append, mem_flattenFrag_iff h1 h2, ih]

theorem matchLit_corr {lit : List Char} (hlit : ∀ c ∈ lit, isWordChar c = true) :
    ∀ {xs ys}, Corr xs ys →
      (matchLit lit xs = none ∧ matchLit lit ys = none) ∨
      (∃ xs' ys', matchLit lit xs = some xs' ∧ matchLit lit ys = some ys' ∧ Corr xs' ys') := by
  induction lit with
  | nil =>
    intro xs ys h
    exact Or.inr ⟨xs, ys, rfl, rfl, h⟩
  | cons l ls ih =>
    intro xs ys h
    cases h with
    | nil => exact Or.inl ⟨rfl, rfl⟩
    | cons c h =>
      by_cases hcl : c = l
      · subst hcl
        rcases ih (fun d hd => hlit d (List.mem_cons_of_mem _ hd)) h with
          ⟨h1, h2⟩ | ⟨xs', ys', h1, h2, h3⟩
        · exact Or.inl ⟨by simp [matchLit, h1], by simp [matchLit, h2]⟩
        · exact Or.inr ⟨xs', ys', by simp [matchLit, h1], by simp [matchLit, h2], h3⟩
      · exact Or.inl ⟨by simp [matchLit, hcl], by simp [matchLit, hcl]⟩
    | occ hw ho hp hcorr =>
      have hl : ('\\' : Char) ≠ l := by
        intro hh
        exact (wordChar_ne (hlit l (by simp))).1 hh.symm
      exact Or.inl ⟨by simp [matchLit, hl], by simp [matchLit, hl]⟩

theorem takeWord_corr : ∀ {xs ys}, Corr xs ys →
    ∃ w xs' ys', takeWord xs = (w, xs') ∧ takeWord ys = (w, ys') ∧ Corr xs' ys' := by
  intro xs ys h
  induction h with
  | nil => exact ⟨[], [], [], rfl, rfl, Corr.nil⟩
  | cons c h ih =>
    by_cases hw : isWordChar c
    · obtain ⟨w, xs', ys', h1, h2, h3⟩ := ih
      exact ⟨c :: w, xs', ys', by simp [takeWord, hw, h1], by simp [takeWord, hw, h2], h3⟩
    · refine ⟨[], _, _, ?_, ?_, Corr.cons c h⟩ <;> simp [takeWord, hw]
  | occ hw ho hp hcorr ih =>
    refine ⟨[], _, _, ?_, ?_, Corr.occ hw ho hp hcorr⟩ <;>
      simp [takeWord, show isWordChar '\\' = false from by decide]

theorem pathrem_of_guarded {p r r' : List Char} (hp : '\x7d' ∉ p) (hcorr : Corr r r') :
    PathRem ('\x7b' :: (p ++ '\x7d' :: r)) ('\x7b' :: (flattenFrag p ++ '\x7d' :: r')) := by
  refine ⟨'\x7b' :: p, r, r', ?_, hcorr, by simp, ?_⟩
  · simp only [List.mem_cons]
    push_neg
    exact ⟨by decide, hp⟩
  · rw [flattenFrag_cons_ne (by decide)]
    simp

theorem matchBraceArg_corr : ∀ {xs ys}, Corr xs ys ∨ PathRem xs ys →
    (matchBraceArg xs = none ↔ matchBraceArg ys = none) := by
  intro xs ys h
  rcases h with h | ⟨p, r, r', hp, hcorr, rfl, rfl⟩
  · cases h with
    | nil => simp [matchBraceArg]
    | cons c h =>
      by_cases hc : c = '\x7b'
      · subst hc
        simp only [matchBraceArg, if_pos]
        rw [scanUntil_none_iff, scanUntil_none_iff]
        constructor
        · intro hm
          exact fun hmem => hm ((corr_mem_iff h (by decide) (by decide)).mpr hmem)
        · intro hm
          exact fun hmem => hm ((corr_mem_iff h (by decide) (by decide)).mp hmem)
      · simp [matchBraceArg_none_head hc]
    | occ hw ho hp hcorr =>
      simp [matchBraceArg_none_head (c := '\\') (by decide)]
  · cases p with
    | nil =>
      simp [flattenFrag, matchBraceArg_none_head (c := '\x7d') (by decide)]
    | cons c t =>
      by_cases hc : c = '/'
      · subst hc
        rw [flattenFrag_cons_slash, List.cons_append, List.cons_append, List.cons_append]
        simp [matchBraceArg_none_head (c := '/') (by decide),
          matchBraceArg_none_head (c := '_') (by decide)]
      · rw [flattenFrag_cons_ne hc, List.cons_append, List.cons_append]
        by_cases hb : c = '\x7b'
        · subst hb
          have hpt : '\x7d' ∉ t := fun hh => hp (List.mem_cons_of_mem _ hh)
          have hft : '\x7d' ∉ flattenFrag t :=
            fun hh => hpt ((mem_flattenFrag_iff (by decide) (by decide) t).mp hh)
          simp only [matchBraceArg, if_pos]
          rw [scanUntil_some_of hpt r, scanUntil_some_of hft r']
          simp
        · simp [matchBraceArg_none_head hb]

theorem scanRB_corr : ∀ {xs ys}, Corr xs ys →
    (scanUntil ']' xs = none ∧ scanUntil ']' ys = none) ∨
    (∃ a b xs' ys', scanUntil ']' xs = some (a, xs') ∧ scanUntil ']' ys = some (b, ys') ∧
      (Corr xs' ys' ∨ PathRem xs' ys')) := by
  intro xs ys h
  induction h with
  | nil => exact Or.inl ⟨rfl, rfl⟩
  | cons c h ih =>
    by_cases hc : c = ']'
    · subst hc
      exact Or.inr ⟨[], [], _, _, by simp [scanUntil], by simp [scanUntil], Or.inl h⟩
    · rcases ih with ⟨h1, h2⟩ | ⟨a, b, xs', ys', h1, h2, h3⟩
      · exact Or.inl ⟨by simp [scanUntil, hc, h1], by simp [scanUntil, hc, h2]⟩
      · exact Or.inr ⟨c :: a, c :: b, xs', ys',
          by simp [scanUntil, hc, h1], by simp [scanUntil, hc, h2], h3⟩
  | occ hw ho hp hcorr ih =>
    rename_i cmd opts p r r'
    have hcmd : ']' ∉ cmd := fun hh => (wordChar_ne (hw _ hh)).2.2.1 rfl
    rcases ho with rfl | ⟨inner, rfl, hi⟩
    · by_cases hpm : ']' ∈ p
      · obtain ⟨p1, p2, hsplit⟩ : ∃ p1 p2, scanUntil ']' p = some (p1, p2) := by
          cases hsp : scanUntil ']' p with
          | none => exact absurd (scanUntil_none_inv hsp) (by simpa using hpm)
          | some pr =>
            obtain ⟨x1, x2⟩ := pr
            exact ⟨x1, x2, rfl⟩
        obtain ⟨hp12, hp1⟩ := scanUntil_some_inv hsplit
        subst hp12
        have hxs : '\\' :: (cmd ++ ([] ++ '\x7b' :: ((p1 ++ ']' :: p2) ++ '\x7d' :: r)))
            = ('\\' :: (cmd ++ '\x7b' :: p1)) ++ ']' :: (p2 ++ '\x7d' :: r) := by
          simp
        have hff : flattenFrag (p1 ++ ']' :: p2)
            = flattenFrag p1 ++ ']' :: flattenFrag p2 := by
          rw [flattenFrag_append, flattenFrag_cons_ne (by decide)]
        have hys : '\\' :: (cmd ++ ([] ++ '\x7b' ::
              (flattenFrag (p1 ++ ']' :: p2) ++ '\x7d' :: r')))
            = ('\\' :: (cmd ++ '\x7b' :: flattenFrag p1)) ++ ']' ::
              (flattenFrag p2 ++ '\x7d' :: r') := by
          rw [hff]
          simp
        have ha : ']' ∉ '\\' :: (cmd ++ '\x7b' :: p1) := by
          simp only [List.mem_cons, List.mem_append]
          push_neg
          exact ⟨by decide, hcmd, by decide, hp1⟩
        have hb : ']' ∉ '\\' :: (cmd ++ '\x7b' :: flattenFrag p1) := by
          simp only [List.mem_cons, List.mem_append]
          push_neg
          refine ⟨by decide, hcmd, by decide, ?_⟩
          exact fun hh => hp1 ((mem_flattenFrag_iff (by decide) (by decide) p1).mp hh)
        rw [hxs, hys]
        refine Or.inr ⟨_, _, _, _, scanUntil_some_of ha _, scanUntil_some_of hb _, Or.inr ?_⟩
        refine ⟨p2, r, r', ?_, hcorr, rfl, rfl⟩
        intro hh
        exact hp (by simp [hh])
      · have hfp : ']' ∉ flattenFrag p :=
          fun hh => hpm ((mem_flattenFrag_iff (by decide) (by decide) p).mp hh)
        have hxs : '\\' :: (cmd ++ ([] ++ '\x7b' :: (p ++ '\x7d' :: r)))
            = ('\\' :: (cmd ++ '\x7b' :: (p ++ ['\x7d']))) ++ r := by
          simp
        have hys : '\\' :: (cmd ++ ([] ++ '\x7b' :: (flattenFrag p ++ '\x7d' :: r')))
            = ('\\' :: (cmd ++ '\x7b' :: (flattenFrag p ++ ['\x7d']))) ++ r' := by
          simp
        have ha : ']' ∉ '\\' :: (cmd ++ '\x7b' :: (p ++ ['\x7d'])) := by
          simp only [List.mem_cons, List.mem_append]
          push_neg
          exact ⟨by decide, hcmd, by decide, hpm, by decide⟩
        have hb : ']' ∉ '\\' :: (cmd ++ '\x7b' :: (flattenFrag p ++ ['\x7d'])) := by
          simp only [List.mem_cons, List.mem_append]
          push_neg
          exact ⟨by decide, hcmd, by decide, hfp, by decide⟩
        rw [hxs, hys, scanUntil_append ha r, scanUntil_append hb r']
        rcases ih with ⟨h1, h2⟩ | ⟨a, b, xs', ys', h1, h2, h3⟩
        · rw [h1, h2]
          exact Or.inl ⟨rfl, rfl⟩
        · rw [h1, h2]
          exact Or.inr ⟨_, _, xs', ys', rfl, rfl, h3⟩
    · have hxs : '\\' :: (cmd ++ (('[' :: (inner ++ [']'])) ++ '\x7b' :: (p ++ '\x7d' :: r)))
          = ('\\' :: (cmd ++ '[' :: inner)) ++ ']' :: ('\x7b' :: (p ++ '\x7d' :: r)) := by
        simp
      have hys : '\\' :: (cmd ++ (('[' :: (inner ++ [']'])) ++ '\x7b' ::
            (flattenFrag p ++ '\x7d' :: r')))
          = ('\\' :: (cmd ++ '[' :: inner)) ++ ']' ::
            ('\x7b' :: (flattenFrag p ++ '\x7d' :: r')) := by
        simp
      have ha : ']' ∉ '\\' :: (cmd ++ '[' :: inner) := by
        simp only [List.mem_cons, List.mem_append]
        push_neg
        exact ⟨by decide, hcmd, by decide, hi⟩
      rw [hxs, hys]
      exact Or.inr ⟨_, _, _, _, scanUntil_some_of ha _, scanUntil_some_of ha _,
        Or.inr (pathrem_of_guarded hp hcorr)⟩

theorem matchOptsPath_corr : ∀ {xs ys}, Corr xs ys →
    (matchOptsPath xs = none ↔ matchOptsPath ys = none) := by
  intro xs ys h
  cases h with
  | nil => simp [matchOptsPath]
  | cons c h =>
    rename_i tx ty
    by_cases hc : c = '['
    · subst hc
      simp only [matchOptsPath, if_pos]
      rcases scanRB_corr h with ⟨h1, h2⟩ | ⟨a, b, xs', ys', h1, h2, h3⟩
      · rw [h1, h2]
      · rw [h1, h2]
        dsimp only
        have hpar := matchBraceArg_corr h3
        cases hbx : matchBraceArg xs' with
        | none =>
          have hby := hpar.mp hbx
          simp [hby]
        | some pr =>
          obtain ⟨path, r2⟩ := pr
          cases hby : matchBraceArg ys' with
          | none => exact absurd (hpar.mpr hby) (by simp [hbx])
          | some pr2 =>
            obtain ⟨path2, r3⟩ := pr2
            simp
    · simp only [matchOptsPath, if_neg hc]
      have hpar := matchBraceArg_corr (Or.inl (Corr.cons c h))
      cases hbx : matchBraceArg (c :: tx) with
      | none =>
        have hby := hpar.mp hbx
        simp [hby]
      | some pr =>
        obtain ⟨path, r2⟩ := pr
        cases hby : matchBraceArg (c :: ty) with
        | none => exact absurd (hpar.mpr hby) (by simp [hbx])
        | some pr2 =>
          obtain ⟨path2, r3⟩ := pr2
          simp
  | occ hw ho hp hcorr =>
    simp only [matchOptsPath, if_neg (by decide : ¬('\\' : Char) = '[')]
    rw [matchBraceArg_none_head (c := '\\') (by decide),
      matchBraceArg_none_head (c := '\\') (by decide)]

theorem tryCmdLit_corr {lit : List Char} (hlit : ∀ c ∈ lit, isWordChar c = true)
    {xs ys : List Char} (h : Corr xs ys) :
    (tryCmdLit lit xs = none ↔ tryCmdLit lit ys = none) := by
  unfold tryCmdLit
  rcases matchLit_corr hlit h with ⟨h1, h2⟩ | ⟨xs', ys', h1, h2, h3⟩
  · simp [h1, h2]
  · rw [h1, h2]
    dsimp only
    have hpar := matchOptsPath_corr h3
    cases hmx : matchOptsPath xs' with
    | none =>
      have hmy := hpar.mp hmx
      simp [hmy]
    | some pr =>
      obtain ⟨o, ppr⟩ := pr
      obtain ⟨p, r⟩ := ppr
      cases hmy : matchOptsPath ys' with
      | none => exact absurd (hpar.mpr hmy) (by simp [hmx])
      | some pr2 =>
        obtain ⟨o2, ppr2⟩ := pr2
        obtain ⟨p2, r2⟩ := ppr2
        simp

theorem tryBib_corr {xs ys : List Char} (h : Corr xs ys) :
    (tryBib xs = none ↔ tryBib ys = none) := by
  unfold tryBib
  rcases @matchLit_corr bibliographyLit (by decide) _ _ h with
    ⟨h1, h2⟩ | ⟨xs', ys', h1, h2, h3⟩
  · simp [h1, h2]
  · rw [h1, h2]
    dsimp only
    obtain ⟨w, xs2, ys2, hw1, hw2, hw3⟩ := takeWord_corr h3
    rw [hw1, hw2]
    dsimp only
    have hpar := matchOptsPath_corr hw3
    cases hmx : matchOptsPath xs2 with
    | none =>
      have hmy := hpar.mp hmx
      simp [hmy]
    | some pr =>
      obtain ⟨o, ppr⟩ := pr
      obtain ⟨p, r⟩ := ppr
      cases hmy : matchOptsPath ys2 with
      | none => exact absurd (hpar.mpr hmy) (by simp [hmx])
      | some pr2 =>
        obtain ⟨o2, ppr2⟩ := pr2
        obtain ⟨p2, r2⟩ := ppr2
        simp

theorem matchAfterSlash_corr {xs ys : List Char} (h : Corr xs ys) :
    (matchAfterSlash xs = none ↔ matchAfterSlash ys = none) := by
  unfold matchAfterSlash
  have c1 := @tryCmdLit_corr inputLit (by decide) _ _ h
  have c2 := @tryCmdLit_corr includeLit (by decide) _ _ h
  have c3 := @tryCmdLit_corr includegraphicsLit (by decide) _ _ h
  have c4 := tryBib_corr h
  cases h1x : tryCmdLit inputLit xs with
  | some res =>
    cases h1y : tryCmdLit inputLit ys with
    | none => exact absurd (c1.mpr h1y) (by simp [h1x])
    | some res2 => simp
  | none =>
    rw [c1.mp h1x]
    dsimp only
    cases h2x : tryCmdLit includeLit xs with
    | some res =>
      cases h2y : tryCmdLit includeLit ys with
      | none => exact absurd (c2.mpr h2y) (by simp [h2x])
      | some res2 => simp
    | none =>
      rw [c2.mp h2x]
      dsimp only
      cases h3x : tryCmdLit includegraphicsLit xs with
      | some res =>
        cases h3y : tryCmdLit includegraphicsLit ys with
        | none => exact absurd (c3.mpr h3y) (by simp [h3x])
        | some res2 => simp
      | none =>
        rw [c3.mp h3x]
        dsimp only
        exact c4

theorem recognized_word {cmd : List Char} (h : RecognizedCmd cmd) :
    ∀ c ∈ cmd, isWordChar c = true := by
  rcases h with rfl | rfl | rfl | ⟨t, rfl, ht⟩
  · decide
  · decide
  · decide
  · intro c hc
    rcases List.mem_append.mp hc with h | h
    · exact (by decide : ∀ c ∈ bibliographyLit, isWordChar c = true) c h
    · exact ht c h

theorem corr_self_aux : ∀ n cs, cs.length ≤ n → Corr cs (replaceImportsL cs) := by
  intro n
  induction n with
  | zero =>
    intro cs hlen
    have hnil : cs = [] := List.length_eq_zero.mp (Nat.le_zero.mp hlen)
    subst hnil
    rw [replaceImportsL_nil]
    exact Corr.nil
  | succ n ih =>
    intro cs hlen
    cases cs with
    | nil =>
      rw [replaceImportsL_nil]
      exact Corr.nil
    | cons c t =>
      simp only [List.length_cons] at hlen
      by_cases hc : c = '\\'
      · subst hc
        cases hm : matchAfterSlash t with
        | none =>
          rw [replaceImportsL_slash_none hm]
          exact Corr.cons '\\' (ih t (by omega))
        | some res =>
          obtain ⟨cmd, opr⟩ := res
          obtain ⟨o, ppr⟩ := opr
          obtain ⟨p, r⟩ := ppr
          obtain ⟨hcs, hrec, hwf, hp⟩ := matchAfterSlash_sound hm
          have hr := matchAfterSlash_rest_length hm
          rw [replaceImportsL_slash_some hm, hcs]
          exact Corr.occ (recognized_word hrec) hwf hp (ih r (by omega))
      · rw [replaceImportsL_cons hc]
        exact Corr.cons c (ih t (by omega))

theorem corr_self (cs : List Char) : Corr cs (replaceImportsL cs) :=
  corr_self_aux cs.length cs le_rfl

theorem replaceImportsL_idem_aux : ∀ n cs, cs.length ≤ n →
    replaceImportsL (replaceImportsL cs) = replaceImportsL cs := by
  intro n
  induction n with
  | zero =>
    intro cs hlen
    have hnil : cs = [] := List.length_eq_zero.mp (Nat.le_zero.mp hlen)
    subst hnil
    rw [replaceImportsL_nil, replaceImportsL_nil]
  | succ n ih =>
    intro cs hlen
    cases cs with
    | nil => rw [replaceImportsL_nil, replaceImportsL_nil]
    | cons c t =>
      simp only [List.length_cons] at hlen
      by_cases hc : c = '\\'
      · subst hc
        cases hm : matchAfterSlash t with
        | none =>
          rw [replaceImportsL_slash_none hm]
          have hm2 : matchAfterSlash (replaceImportsL t) = none :=
            (matchAfterSlash_corr (corr_self t)).mp hm
          rw [replaceImportsL_slash_none hm2, ih t (by omega)]
        | some res =>
          obtain ⟨cmd, opr⟩ := res
          obtain ⟨o, ppr⟩ := opr
          obtain ⟨p, r⟩ := ppr
          obtain ⟨hcs, hrec, hwf, hp⟩ := matchAfterSlash_sound hm
          have hr := matchAfterSlash_rest_length hm
          rw [replaceImportsL_slash_some hm]
          have hb : '\x7d' ∉ flattenFrag p :=
            fun hh => hp ((mem_flattenFrag_iff (by decide) (by decide) p).mp hh)
          rw [replaceImportsL_slash_some (matchAfterSlash_at hrec hwf hb (replaceImportsL r))]
          rw [flattenFrag_idem, ih r (by omega)]
      · rw [replaceImportsL_cons hc, replaceImportsL_cons hc, ih t (by omega)]

theorem replaceImportsL_idem (cs : List Char) :
    replaceImportsL (replaceImportsL cs) = replaceImportsL cs :=
  replaceImportsL_idem_aux cs.length cs le_rfl

theorem agree_self_aux : ∀ n cs, cs.length ≤ n →
    AgreeOutsidePaths cs (replaceImportsL cs) := by
  intro n
  induction n with
  | zero =>
    intro cs hlen
    have hnil : cs = [] := List.length_eq_zero.mp (Nat.le_zero.mp hlen)
    subst hnil
    rw [replaceImportsL_nil]
    exact AgreeOutsidePaths.nil
  | succ n ih =>
    intro cs hlen
    cases cs with
    | nil =>
      rw [replaceImportsL_nil]
      exact AgreeOutsidePaths.nil
    | cons c t =>
      simp only [List.length_cons] at hlen
      by_cases hc : c = '\\'
      · subst hc
        cases hm : matchAfterSlash t with
        | none =>
          rw [replaceImportsL_slash_none hm]
          exact AgreeOutsidePaths.cons '\\' (ih t (by omega))
        | some res =>
          obtain ⟨cmd, opr⟩ := res
          obtain ⟨o, ppr⟩ := opr
          obtain ⟨p, r⟩ := ppr
          obtain ⟨hcs, hrec, hwf, hp⟩ := matchAfterSlash_sound hm
          have hr := matchAfterSlash_rest_length hm
          have hf : '\x7d' ∉ flattenFrag p :=
            fun hh => hp ((mem_flattenFrag_iff (by decide) (by decide) p).mp hh)
          rw [replaceImportsL_slash_some hm, hcs]
          exact AgreeOutsidePaths.occ hrec hwf hp hf (ih r (by omega))
      · rw [replaceImportsL_cons hc]
        exact AgreeOutsidePaths.cons c (ih t (by omega))

theorem agree_self (cs : List Char) : AgreeOutsidePaths cs (replaceImportsL cs) :=
  agree_self_aux cs.length cs le_rfl

theorem lineHasCommand_cons (c : Char) (t : List Char) :
    lineHasCommand (c :: t) =
      ((c == '\\' && (matchAfterSlash t).isSome) || lineHasCommand t) := by
  simp only [lineHasCommand, List.tails_cons, List.any_cons]

theorem noCommand_fix_aux : ∀ n cs, cs.length ≤ n → lineHasCommand cs = false →
    replaceImportsL cs = cs := by
  intro n
  induction n with
  | zero =>
    intro cs hlen _
    have hnil : cs = [] := List.length_eq_zero.mp (Nat.le_zero.mp hlen)
    subst hnil
    exact replaceImportsL_nil
  | succ n ih =>
    intro cs hlen hno
    cases cs with
    | nil => exact replaceImportsL_nil
    | cons c t =>
      simp only [List.length_cons] at hlen
      rw [lineHasCommand_cons] at hno
      simp only [Bool.or_eq_false_iff, Bool.and_eq_false_iff] at hno
      obtain ⟨hhead, htail⟩ := hno
      by_cases hc : c = '\\'
      · subst hc
        have hm : matchAfterSlash t = none := by
          rcases hhead with h | h
          · exact absurd h (by simp)
          · exact Option.not_isSome_iff_eq_none.mp (by simp [h])
        rw [replaceImportsL_slash_none hm, ih t (by omega) htail]
      · rw [replaceImportsL_cons hc, ih t (by omega) htail]

theorem noCommand_fix {cs : List Char} (h : lineHasCommand cs = false) :
    replaceImportsL cs = cs :=
  noCommand_fix_aux cs.length cs le_rfl h

theorem stripCR_of_ne {l : List Char} (h : l.getLast? ≠ some '\r') : stripCR l = l := by
  unfold stripCR
  cases hl : l.getLast? with
  | none => rfl
  | some c =>
    have hc : c ≠ '\r' := by
      intro hc
      exact h (by rw [hl, hc])
    dsimp only
    rw [if_neg hc]

theorem rustLinesAux_nil (acc : List Char) : rustLinesAux acc [] = [acc.reverse] := rfl

theorem rustLinesAux_cons (acc : List Char) (c : Char) (t : List Char) :
    rustLinesAux acc (c :: t) =
      if c = '\n' then stripCR acc.reverse :: (if t = [] then [] else rustLinesAux [] t)
      else rustLinesAux (c :: acc) t := by
  rw [rustLinesAux.eq_def]

theorem rustLinesAux_append_newline :
    ∀ cs acc, cs ≠ [] → cs.getLast? ≠ some '\n' → cs.getLast? ≠ some '\r' →
      rustLinesAux acc (cs ++ ['\n']) = rustLinesAux acc cs := by
  intro cs
  induction cs with
  | nil =>
    intro acc h _ _
    exact absurd rfl h
  | cons c t ih =>
    intro acc _ hn hr
    cases t with
    | nil =>
      have hcn : c ≠ '\n' := by
        intro h
        exact hn (by simp [h])
      have hcr : c ≠ '\r' := by
        intro h
        exact hr (by simp [h])
      have hstrip : stripCR ((c :: acc).reverse) = (c :: acc).reverse := by
        apply stripCR_of_ne
        rw [List.getLast?_reverse]
        simp only [List.head?_cons]
        intro hh
        exact hcr (by injection hh)
      rw [List.cons_append, List.nil_append, rustLinesAux_cons, if_neg hcn,
        rustLinesAux_cons, if_pos rfl, if_pos rfl, hstrip,
        rustLinesAux_cons, if_neg hcn, rustLinesAux_nil]
    | cons d t2 =>
      have hlast : (c :: d :: t2).getLast? = (d :: t2).getLast? := by
        simp [List.getLast?_cons_cons]
      rw [hlast] at hn hr
      by_cases hc : c = '\n'
      · subst hc
        rw [List.cons_append, rustLinesAux_cons, if_pos rfl,
          rustLinesAux_cons acc, if_pos rfl]
        rw [if_neg (show ¬(d :: t2 ++ ['\n']) = [] by simp),
          if_neg (show ¬(d :: t2) = [] by simp)]
        rw [ih [] (by simp) hn hr]
      · rw [List.cons_append, rustLinesAux_cons, if_neg hc,
          rustLinesAux_cons acc, if_neg hc]
        exact ih (c :: acc) (by simp) hn hr

theorem processTex_append_newline {cs : List Char} (hn : cs.getLast? ≠ some '\n')
    (hr : cs.getLast? ≠ some '\r') :
    processTexContent (cs ++ ['\n']) = processTexContent cs := by
  cases cs with
  | nil => rfl
  | cons c t =>
    unfold processTexContent rustLines
    rw [if_neg (by simp), if_neg (by simp)]
    rw [rustLinesAux_append_newline (c :: t) [] (by simp) hn hr]

theorem joinSep_ne_nil {sep : List Char} :
    ∀ {S : List (List Char)}, S ≠ [] → (∀ s ∈ S, s ≠ []) → joinSep sep S ≠ [] := by
  intro S
  induction S with
  | nil =>
    intro h _
    exact absurd rfl h
  | cons s t ih =>
    intro _ hall
    cases t with
    | nil => exact hall s (by simp)
    | cons s2 t2 =>
      simp only [joinSep]
      intro hh
      rw [List.append_assoc] at hh
      obtain ⟨h1, _⟩ := List.append_eq_nil.mp hh
      exact hall s (by simp) h1

theorem joinSep_not_mem {c : Char} {sep : List Char} (hsep : c ∉ sep) :
    ∀ {S : List (List Char)}, (∀ s ∈ S, c ∉ s) → c ∉ joinSep sep S := by
  intro S
  induction S with
  | nil =>
    intro _
    simp [joinSep]
  | cons s t ih =>
    intro hall
    cases t with
    | nil => exact hall s (by simp)
    | cons s2 t2 =>
      simp only [joinSep, List.mem_append]
      push_neg
      refine ⟨⟨hall s (by simp), hsep⟩, ?_⟩
      exact ih (fun x hx => hall x (List.mem_cons_of_mem _ hx))

theorem mapOsToStr_text (S : List (List Char)) :
    mapOsToStr (S.map OsStr.text) = some S := by
  induction S with
  | nil => rfl
  | cons s t ih => simp [mapOsToStr, osToStr, ih]

theorem mapOsToStr_none_iff : ∀ {l : List OsStr},
    mapOsToStr l = none ↔ ∃ c ∈ l, osToStr c = none := by
  intro l
  induction l with
  | nil => simp [mapOsToStr]
  | cons c t ih =>
    simp only [mapOsToStr]
    cases hc : osToStr c with
    | none =>
      dsimp only
      constructor
      · intro _
        exact ⟨c, by simp, hc⟩
      · intro _
        rfl
    | some s =>
      cases ht : mapOsToStr t with
      | none =>
        dsimp only
        constructor
        · intro _
          obtain ⟨d, hd, h⟩ := ih.mp ht
          exact ⟨d, List.mem_cons_of_mem _ hd, h⟩
        · intro _
          rfl
      | some rest =>
        dsimp only
        constructor
        · intro h
          exact absurd h (by simp)
        · rintro ⟨d, hd, h⟩
          rcases List.mem_cons.mp hd with rfl | hd
          · rw [hc] at h
            exact absurd h (by simp)
          · have hnone : mapOsToStr t = none := ih.mpr ⟨d, hd, h⟩
            rw [ht] at hnone
            exact absurd hnone (by simp)

theorem flatten_path_strip {root : List OsStr} {S : List (List Char)} :
    flatten_path root (root ++ S.map OsStr.text) = some (joinSep "__".toList S) := by
  unfold flatten_path
  rw [List.drop_left, mapOsToStr_text]
  rfl

theorem flatten_path_none_iff {root path : List OsStr} :
    flatten_path root path = none ↔ ∃ c ∈ path.drop root.length, osToStr c = none := by
  unfold flatten_path
  rw [Option.map_eq_none']
  exact mapOsToStr_none_iff

theorem afterLastDot_some {cs e : List Char} (h : afterLastDot cs = some e) :
    ∃ a, cs = a ++ '.' :: e := by
  induction cs generalizing e with
  | nil => exact absurd h (by simp [afterLastDot])
  | cons c t ih =>
    simp only [afterLastDot] at h
    cases ht : afterLastDot t with
    | some e2 =>
      rw [ht] at h
      dsimp only at h
      have he : e2 = e := by injection h
      subst he
      obtain ⟨a, ha⟩ := ih ht
      exact ⟨c :: a, by rw [ha]; rfl⟩
    | none =>
      rw [ht] at h
      dsimp only at h
      by_cases hc : c = '.'
      · rw [if_pos hc] at h
        have he : t = e := by injection h
        subst he hc
        exact ⟨[], rfl⟩
      · rw [if_neg hc] at h
        exact absurd h (by simp)

theorem pathIsTex_suffix {name : List Char} (h : pathIsTex name = true) :
    ∃ pre, pre ≠ [] ∧ name = pre ++ ('.' :: "tex".toList) := by
  unfold pathIsTex at h
  cases he : fileExtension name with
  | none =>
    rw [he] at h
    exact absurd h (by simp)
  | some e =>
    rw [he] at h
    dsimp only at h
    have he2 : e = "tex".toList := by simpa using h
    subst he2
    unfold fileExtension at he
    cases name with
    | nil => exact absurd he (by simp)
    | cons c t =>
      dsimp only at he
      by_cases hc : c = '.'
      · rw [if_pos hc] at he
        obtain ⟨a, ha⟩ := afterLastDot_some he
        subst hc
        exact ⟨'.' :: a, by simp, by rw [ha]; rfl⟩
      · rw [if_neg hc] at he
        obtain ⟨a, ha⟩ := afterLastDot_some he
        cases a with
        | nil =>
          rw [List.nil_append] at ha
          have : c = '.' := by injection ha
          exact absurd this hc
        | cons a0 a2 => exact ⟨a0 :: a2, by simp, ha⟩

theorem process_content_non_tex {name content : List Char} (h : pathIsTex name = false) :
    process_content name content = content := by
  simp [process_content, h]

theorem countUU_cons_ne {c : Char} (hc : c ≠ '_') (t : List Char) :
    countUU (c :: t) = countUU t := by
  cases t with
  | nil => rfl
  | cons d t2 =>
    have : ¬(c = '_' ∧ d = '_') := fun hh => hc hh.1
    simp only [countUU, if_neg this]

theorem countUU_uu (t : List Char) : countUU ('_' :: '_' :: t) = countUU t + 1 := by
  simp [countUU]

theorem countUU_flattenFrag {p : List Char} (h : '_' ∉ p) :
    countUU (flattenFrag p) = p.count '/' := by
  induction p with
  | nil => simp [flattenFrag, countUU]
  | cons c t ih =>
    have hcu : c ≠ '_' := by
      intro hh
      exact h (by simp [hh])
    have ht : '_' ∉ t := fun hh => h (List.mem_cons_of_mem _ hh)
    by_cases hc : c = '/'
    · subst hc
      rw [flattenFrag_cons_slash, countUU_uu, ih ht, List.count_cons]
      simp
    · rw [flattenFrag_cons_ne hc, countUU_cons_ne hcu, ih ht, List.count_cons]
      simp [hc]

/-- Claim C1: for every input line the rewriter finds every non-overlapping
occurrence of the recognized command grammar left to right; each occurrence
is reconstructed as backslash, command name and options text unchanged, with
`/` replaced by `__` in the captured path argument only, and rewriting then
continues after the occurrence — so a line with two recognized commands
rewrites both independently, and a backslash inside the options fragment is
preserved verbatim rather than starting a new command. -/
theorem claim1_occurrence_rewrite :
    (∀ cmd opts p rest, RecognizedCmd cmd → WfOpts opts → '\x7d' ∉ p →
      replaceImportsL ('\\' :: (cmd ++ (opts ++ '\x7b' :: (p ++ '\x7d' :: rest)))) =
        '\\' :: (cmd ++ (opts ++ '\x7b' :: (flattenFrag p ++ '\x7d' :: replaceImportsL rest)))) ∧
    replace_imports ("\\input\x7ba/b\x7d\\includegraphics\x7bc/d.png\x7d")
      = "\\input\x7ba__b\x7d\\includegraphics\x7bc__d.png\x7d" ∧
    replace_imports ("\\includegraphics[width=0.8\\linewidth]\x7bfigures/search_process.pdf\x7d")
      = "\\includegraphics[width=0.8\\linewidth]\x7bfigures__search_process.pdf\x7d" := by
  refine ⟨?_, by decide, by decide⟩
  intro cmd opts p rest hc ho hp
  exact replaceImportsL_occ hc ho hp rest

/-- Claim C1 witness: the general occurrence theorem applied to the concrete
line consisting of one occurrence of an input command on path `a/b`. -/
theorem claim1_occurrence_rewrite_witness :
    RecognizedCmd inputLit ∧ WfOpts [] ∧ '\x7d' ∉ ('a' :: '/' :: 'b' :: []) ∧
    replaceImportsL ('\\' :: (inputLit ++ ([] ++ '\x7b' :: (('a' :: '/' :: 'b' :: []) ++ '\x7d' :: [])))) =
      '\\' :: (inputLit ++ ([] ++ '\x7b' :: (flattenFrag ('a' :: '/' :: 'b' :: []) ++ '\x7d' :: replaceImportsL []))) :=
  ⟨Or.inl rfl, Or.inl rfl, by decide,
    claim1_occurrence_rewrite.1 inputLit [] ('a' :: '/' :: 'b' :: []) []
      (Or.inl rfl) (Or.inl rfl) (by decide)⟩

/-- Claim C2 counterexample: at document level the transform is not
byte-identical outside path arguments: the document text consisting of one
character and a trailing newline contains no command occurrence at all, yet
its transform drops the trailing newline, so input and output do not agree
outside path arguments. -/
theorem claim2_counterexample :
    processTexContent ("a\n".toList) = "a".toList ∧
    ¬ AgreeOutsidePaths ("a\n".toList) (processTexContent ("a\n".toList)) := by
  have hcomp : processTexContent ("a\n".toList) = "a".toList := by decide
  refine ⟨hcomp, ?_⟩
  rw [hcomp]
  intro hag
  have hag2 : AgreeOutsidePaths ('a' :: '\n' :: []) ('a' :: []) := hag
  cases hag2 with
  | cons _ h2 => cases h2

/-- Claim C2 amended: for every line passed through the line rewriting
transform, all content other than the brace-delimited path arguments of
recognized commands is byte-for-byte identical between input and output; at
whole-document level the same holds for each line, but line terminators are
additionally normalized (CRLF to LF, trailing newline dropped), which is
the subject of claim C3. -/
theorem claim2_frame (line : List Char) :
    AgreeOutsidePaths line (replaceImportsL line) :=
  agree_self line

/-- Claim C3: a document is processed by applying the line transform to
every line and rejoining with a single newline; consequently the trailing
empty line distinction is lost — appending a trailing newline to content
not already ending in a line terminator does not change the output, and the
transform of a newline-terminated document is not newline-terminated. -/
theorem claim3_trailing_newline :
    processTexContent ("a\n".toList) = "a".toList ∧
    processTexContent ("a\n".toList) ≠ "a\n".toList ∧
    (∀ content : List Char, content.getLast? ≠ some '\n' →
      content.getLast? ≠ some '\r' →
      processTexContent (content ++ ['\n']) = processTexContent content) := by
  refine ⟨by decide, by decide, ?_⟩
  intro content hn hr
  exact processTex_append_newline hn hr

/-- Claim C3 witness: the round-trip clause applied to the concrete content
consisting of two letters. -/
theorem claim3_trailing_newline_witness :
    ("ab".toList.getLast? ≠ some '\n') ∧ ("ab".toList.getLast? ≠ some '\r') ∧
    processTexContent ("ab".toList ++ ['\n']) = processTexContent ("ab".toList) :=
  ⟨by decide, by decide, claim3_trailing_newline.2.2 ("ab".toList) (by decide) (by decide)⟩

/-- Claim C4 counterexample: rewriting the line with path argument `_/_`
(one `/` separator, segments free of the delimiter `__`) produces the path
argument of four underscores, which contains two non-overlapping
occurrences of `__`, not one. -/
theorem claim4_counterexample :
    replace_imports ("\\input\x7b_/_\x7d") = "\\input\x7b____\x7d" ∧
    ('_' :: '/' :: '_' :: []).count '/' = 1 ∧
    countUU (flattenFrag ('_' :: '/' :: '_' :: [])) = 2 := by
  exact ⟨by decide, by decide, by decide⟩

/-- Claim C4 amended: the output path argument never contains `/`; and for
a path argument containing k `/` separators and no `_` character at all,
the output path argument contains exactly k non-overlapping occurrences of
`__`. -/
theorem claim4_delimiter_count :
    (∀ p : List Char, '/' ∉ flattenFrag p) ∧
    (∀ p : List Char, '_' ∉ p → countUU (flattenFrag p) = p.count '/') :=
  ⟨slash_not_mem_flattenFrag, fun _ h => countUU_flattenFrag h⟩

/-- Claim C4 witness: the count clause applied to the concrete path `a/b`. -/
theorem claim4_delimiter_count_witness :
    ('_' ∉ ('a' :: '/' :: 'b' :: [])) ∧
    countUU (flattenFrag ('a' :: '/' :: 'b' :: [])) = ('a' :: '/' :: 'b' :: []).count '/' :=
  ⟨by decide, claim4_delimiter_count.2 ('a' :: '/' :: 'b' :: []) (by decide)⟩

/-- Claim C5: every successful match carries a command name generated by
`input|include|includegraphics|bibliography\w*`; `bibliographystyle` and
`bibliography` lines rewrite, while `\inputx` (a recognized token followed
by a word character) and `\Input` (different casing) stay unmatched. -/
theorem claim5_command_names :
    (∀ cs cmd o p r, matchAfterSlash cs = some (cmd, o, p, r) → RecognizedCmd cmd) ∧
    replace_imports ("\\bibliographystyle\x7bx/y\x7d") = "\\bibliographystyle\x7bx__y\x7d" ∧
    replace_imports ("\\bibliography\x7bx/y\x7d") = "\\bibliography\x7bx__y\x7d" ∧
    replace_imports ("\\inputx\x7bx/y\x7d") = "\\inputx\x7bx/y\x7d" ∧
    replace_imports ("\\Input\x7bx/y\x7d") = "\\Input\x7bx/y\x7d" := by
  refine ⟨?_, by decide, by decide, by decide, by decide⟩
  intro cs cmd o p r h
  exact (matchAfterSlash_sound h).2.1

/-- Claim C5 witness: the soundness clause applied to the concrete match of
an input command. -/
theorem claim5_command_names_witness :
    matchAfterSlash ("input\x7ba\x7d".toList) = some (inputLit, [], 'a' :: [], []) ∧
    RecognizedCmd inputLit :=
  ⟨by decide,
    claim5_command_names.1 ("input\x7ba\x7d".toList) inputLit [] ('a' :: []) [] (by decide)⟩

/-- Claim C6: a line containing no recognized command occurrence rewrites
to itself. -/
theorem claim6_non_match_invariance (line : String)
    (h : lineHasCommand line.toList = false) : replace_imports line = line := by
  unfold replace_imports
  rw [noCommand_fix h]
  rfl

/-- Claim C6 witness: the invariance applied to a concrete command-free
line. -/
theorem claim6_non_match_invariance_witness :
    lineHasCommand ("Hello world".toList) = false ∧
    replace_imports ("Hello world") = "Hello world" :=
  ⟨by decide, claim6_non_match_invariance ("Hello world") (by decide)⟩

/-- Claim C7: for a root and a path at or below it with at least one
remaining segment, flattening strips the root's components and joins the
remaining segments with `__`; the result is non-empty and free of path
separators; in particular root `/proj` with file
`/proj/content/background.tex` flattens to `content__background.tex`. -/
theorem claim7_flatten_path (root : List OsStr) (S : List (List Char))
    (hne : S ≠ []) (hseg : ∀ s ∈ S, s ≠ [] ∧ '/' ∉ s) :
    flatten_path root (root ++ S.map OsStr.text) = some (joinSep "__".toList S) ∧
    joinSep "__".toList S ≠ [] ∧ '/' ∉ joinSep "__".toList S ∧
    flatten_path [OsStr.text "/".toList, OsStr.text "proj".toList]
      [OsStr.text "/".toList, OsStr.text "proj".toList,
        OsStr.text "content".toList, OsStr.text "background.tex".toList]
      = some ("content__background.tex".toList) := by
  refine ⟨flatten_path_strip, ?_, ?_, by decide⟩
  · exact joinSep_ne_nil hne (fun s hs => (hseg s hs).1)
  · exact joinSep_not_mem (by decide) (fun s hs => (hseg s hs).2)

/-- Claim C7 witness: the flattening theorem applied to a concrete
two-segment path under an empty root. -/
theorem claim7_flatten_path_witness :
    flatten_path [] ([] ++ ("a".toList :: "b".toList :: []).map OsStr.text)
      = some (joinSep "__".toList ("a".toList :: "b".toList :: [])) ∧
    joinSep "__".toList ("a".toList :: "b".toList :: []) ≠ [] ∧
    '/' ∉ joinSep "__".toList ("a".toList :: "b".toList :: []) := by
  have h := claim7_flatten_path [] ("a".toList :: "b".toList :: [])
    (by decide) (by decide)
  exact ⟨h.1, h.2.1, h.2.2.1⟩

/-- Claim C8: flattening fails (with the EncodingError of the
specification, modelled as `none`) exactly when some remaining segment
after the root is not representable as text; in particular it succeeds
whenever all remaining segments are text. -/
theorem claim8_encoding_error (root path : List OsStr) :
    flatten_path root path = none ↔
      ∃ c ∈ path.drop root.length, osToStr c = none :=
  flatten_path_none_iff

/-- Claim C8 witness: the equivalence instantiated at a root-relative
non-text segment. -/
theorem claim8_encoding_error_witness :
    flatten_path [] [OsStr.nonText [255]] = none :=
  (claim8_encoding_error [] [OsStr.nonText [255]]).mpr (by decide)

/-- Claim C9: only files whose name carries the `.tex` extension are passed
through the reference rewriter — a name accepted by the dispatch always
ends in `.tex` — and every other file's content is returned unchanged. -/
theorem claim9_dispatch :
    (∀ name : List Char, pathIsTex name = true →
      ∃ pre, pre ≠ [] ∧ name = pre ++ ('.' :: "tex".toList)) ∧
    (∀ name content : List Char, pathIsTex name = false →
      process_content name content = content) :=
  ⟨fun _ h => pathIsTex_suffix h, fun _ _ h => process_content_non_tex h⟩

/-- Claim C9 witness: the dispatch theorem applied to a PNG file name and a
tex file name. -/
theorem claim9_dispatch_witness :
    pathIsTex ("image.png".toList) = false ∧
    process_content ("image.png".toList) ("PNGDATA".toList) = "PNGDATA".toList ∧
    pathIsTex ("a.tex".toList) = true ∧
    (∃ pre, pre ≠ [] ∧ "a.tex".toList = pre ++ ('.' :: "tex".toList)) :=
  ⟨by decide, claim9_dispatch.2 ("image.png".toList) ("PNGDATA".toList) (by decide),
    by decide, claim9_dispatch.1 ("a.tex".toList) (by decide)⟩

/-- Claim C10: the line rewrite is idempotent: applying it to its own
output returns that output unchanged, because a rewritten path argument
contains no `/` and re-matching it replaces nothing. -/
theorem claim10_idempotent (line : String) :
    replace_imports (replace_imports line) = replace_imports line := by
  unfold replace_imports
  rw [show (String.mk (replaceImportsL line.toList)).toList
    = replaceImportsL line.toList from rfl]
  rw [replaceImportsL_idem]
